import Mathlib

/-!
Verification of `mainSimulations/make_config_acag30.py`, a four-stage
pipeline (header scan, Atoms-block location, chain inference, type remap)
that rewrites the type column of a LAMMPS data file.

The document is modelled as a list of lines, each line a list of
characters (as produced by `splitlines(keepends=True)`, so a line
normally carries its trailing newline).  Python's `str.split()`,
`str.strip()`, `int()`, `%` and `//` are modelled by `pySplit`,
`pyStrip`, `pyToInt`, `Int.fmod` and `Int.fdiv` (floor semantics, as in
Python); whitespace is modelled as ASCII whitespace.  Fallible code
returns `Except Err`; a Python `ValueError` raised by `int()` is the
`IntParseErr` constructor and a `ZeroDivisionError` is `ZeroDivisionErr`.
-/

/-- A line of the document: its characters, trailing newline included. -/
abbrev TLine := List Char

/-- ASCII whitespace, the characters `str.split()` and `str.strip()` treat
as separators. -/
def pySpace (c : Char) : Bool :=
  c = ' ' || c = '\t' || c = '\n' || c = '\x0b' || c = '\x0c' || c = '\r'

/-- Removal of trailing whitespace (the right half of `str.strip()`). -/
def stripTrail (l : TLine) : TLine :=
  (l.reverse.dropWhile pySpace).reverse

/-- Python `str.strip()`: drop leading and trailing whitespace. -/
def pyStrip (l : TLine) : TLine :=
  stripTrail (l.dropWhile pySpace)

/-- Worker for `pySplit`: `acc` is the current (reversed) token. -/
def pySplitGo : List Char → List Char → List (List Char)
  | [], acc => if acc = [] then [] else [acc.reverse]
  | c :: cs, acc =>
    if pySpace c then
      if acc = [] then pySplitGo cs [] else acc.reverse :: pySplitGo cs []
    else pySplitGo cs (c :: acc)

/-- Python `str.split()` with no argument: maximal runs of
non-whitespace characters, leading/trailing/repeated whitespace ignored. -/
def pySplit (l : TLine) : List TLine :=
  pySplitGo l []

/-- Python `" ".join(parts)`. -/
def pyJoinSpace : List TLine → TLine
  | [] => []
  | [t] => t
  | t :: t' :: ts => t ++ ' ' :: pyJoinSpace (t' :: ts)

/-- Decimal value of a digit string, accumulator style. -/
def digitsValGo (acc : Nat) : List Char → Option Nat
  | [] => some acc
  | c :: cs => if c.isDigit then digitsValGo (acc * 10 + (c.toNat - '0'.toNat)) cs else none

/-- Value of a nonempty all-digit string. -/
def digitsVal (l : List Char) : Option Nat :=
  if l = [] then none else digitsValGo 0 l

/-- Python `int(s)` on a whitespace-free token: optional sign followed by
decimal digits; `none` models the `ValueError` raised otherwise. -/
def pyToInt (l : List Char) : Option Int :=
  match l with
  | '-' :: rest => (digitsVal rest).map (fun n => -(n : Int))
  | '+' :: rest => (digitsVal rest).map (fun n => (n : Int))
  | _ => (digitsVal l).map (fun n => (n : Int))

/-- Python `str(n)` for an integer, as a character list. -/
def pyStr (n : Int) : List Char :=
  (toString n).data

/-- A well-formed token: nonempty and free of whitespace.  Every token
produced by `pySplit` has this shape. -/
def goodTok (t : TLine) : Prop :=
  t ≠ [] ∧ ∀ c ∈ t, pySpace c = false

instance (t : TLine) : Decidable (goodTok t) := by
  unfold goodTok; infer_instance

/-- The failure taxonomy of the pipeline.  The first six constructors are
the spec's named errors; `IntParseErr` and `ZeroDivisionErr` model the
`ValueError` of `int()` and the `ZeroDivisionError` of `%` that the
script does not catch. -/
inductive Err where
  | MissingHeaderFact
  | MissingSection
  | TruncatedDocument
  | EmptyBlock
  | IndivisibleChainCount
  | MalformedRecord
  | IntParseErr
  | ZeroDivisionErr
deriving DecidableEq, Repr

instance {ε α : Type} [DecidableEq ε] [DecidableEq α] : DecidableEq (Except ε α) := fun x y =>
  match x, y with
  | .ok a, .ok b =>
    if h : a = b then isTrue (by rw [h]) else isFalse (by intro hh; cases hh; exact h rfl)
  | .ok _, .error _ => isFalse (by intro h; cases h)
  | .error _, .ok _ => isFalse (by intro h; cases h)
  | .error e, .error f =>
    if h : e = f then isTrue (by rw [h]) else isFalse (by intro hh; cases hh; exact h rfl)

/-- Model of parse_num_atoms: scan for the first line whose split form is
exactly two tokens with second token `"atoms"`; return the first token
as an integer. -/
def parse_num_atoms : List TLine → Except Err Int
  | [] => .error .MissingHeaderFact
  | l :: ls =>
    match pySplit l with
    | [a, b] =>
      if b = "atoms".data then
        match pyToInt a with
        | some n => .ok n
        | none => .error .IntParseErr
      else parse_num_atoms ls
    | _ => parse_num_atoms ls

/-- Test used by the block locator: the stripped line starts with
`"Atoms"`. -/
def isAtomsHeader (l : TLine) : Bool :=
  match pyStrip l with
  | 'A' :: 't' :: 'o' :: 'm' :: 's' :: _ => true
  | _ => false

/-- Index of the first line satisfying `isAtomsHeader`. -/
def findAtomsHeaderIdx : List TLine → Option Nat
  | [] => none
  | l :: ls =>
    if isAtomsHeader l then some 0 else (findAtomsHeaderIdx ls).map (· + 1)

/-- Model of find_atoms_block: the block starts two lines after the first
`Atoms` header and spans `natoms` lines; the end index must not pass the
end of the document. -/
def find_atoms_block (lines : List TLine) (natoms : Int) : Except Err (Nat × Int) :=
  match findAtomsHeaderIdx lines with
  | none => .error .MissingSection
  | some i =>
    if ((i + 2 : Nat) : Int) + natoms > (lines.length : Int) then .error .TruncatedDocument
    else .ok (i + 2, ((i + 2 : Nat) : Int) + natoms)

/-- The blank-or-comment test shared by chain inference and the
remapper: the stripped line is empty or starts with `#`. -/
def skipLine (l : TLine) : Bool :=
  match pyStrip l with
  | [] => true
  | c :: _ => c == '#'

/-- One iteration of the collection loop of
`infer_chain_length_and_count`: `ok none` when the line is skipped,
`ok (some m)` when it contributes molecule id `m`, `error` when `int()`
raises. -/
def collectStep (l : TLine) : Except Err (Option Int) :=
  if skipLine l then .ok none
  else
    let parts := pySplit (pyStrip l)
    if parts.length < 3 then .ok none
    else
      match pyToInt (parts.getD 1 []) with
      | none => .error .IntParseErr
      | some m => .ok (some m)

/-- The molecule ids collected over the given block indices, in order. -/
def collectGo (orig : List TLine) : List Nat → Except Err (List Int)
  | [] => .ok []
  | i :: is =>
    match collectStep (orig.getD i []) with
    | .error e => .error e
    | .ok none => collectGo orig is
    | .ok (some m) =>
      match collectGo orig is with
      | .error e => .error e
      | .ok ms => .ok (m :: ms)

/-- Python `max` over a nonempty list, `cur` holding the running value. -/
def pyMax : Int → List Int → Int
  | cur, [] => cur
  | cur, x :: xs => pyMax (max cur x) xs

/-- Model of infer_chain_length_and_count: collect molecule ids over the block,
take their maximum as the chain count, require it to divide the block
size, and return `(chain_len, n_chains)`. -/
def infer_chain_length_and_count (lines : List TLine) (atoms_start : Nat)
    (atoms_end : Int) : Except Err (Int × Int) :=
  match collectGo lines (List.range' atoms_start (atoms_end - (atoms_start : Int)).toNat) with
  | .error e => .error e
  | .ok [] => .error .EmptyBlock
  | .ok (m :: ms) =>
    if pyMax m ms = 0 then .error .ZeroDivisionErr
    else if (atoms_end - (atoms_start : Int)).fmod (pyMax m ms) ≠ 0 then
      .error .IndivisibleChainCount
    else .ok ((atoms_end - (atoms_start : Int)).fdiv (pyMax m ms), pyMax m ms)

/-- The fixed lookup table of the remapper: `(ACAG)`, with A=1, C=2,
G=3 (U=4 unused). -/
def base_pattern : List Int := [1, 2, 1, 3]

/-- The type code the remapper assigns to atom `atom_id` in chains of
length `chain_len`. -/
def patternType (atom_id chain_len : Int) : Int :=
  base_pattern.getD ((Int.fmod (Int.fmod (atom_id - 1) chain_len) 4).toNat) 0

/-- The loop body of `remap_to_acag30` on one raw line: pass skipped
lines through, reject records with fewer than 6 fields, and rewrite
field 2 of the rest, re-serialized single-spaced with a trailing
newline. -/
def remapLine (chain_len : Int) (raw : TLine) : Except Err TLine :=
  if skipLine raw then .ok raw
  else
    let parts := pySplit raw
    if parts.length < 6 then .error .MalformedRecord
    else
      match pyToInt (parts.getD 0 []) with
      | none => .error .IntParseErr
      | some atom_id =>
        if chain_len = 0 then .error .ZeroDivisionErr
        else .ok (pyJoinSpace (parts.set 2 (pyStr (patternType atom_id chain_len))) ++ ['\n'])

/-- The remap loop: read each indexed line from the original document
and write the rewritten line into the accumulator copy. -/
def remapGo (chain_len : Int) (orig : List TLine) :
    List Nat → List TLine → Except Err (List TLine)
  | [], acc => .ok acc
  | i :: is, acc =>
    match remapLine chain_len (orig.getD i []) with
    | .error e => .error e
    | .ok nl => remapGo chain_len orig is (acc.set i nl)

/-- Model of remap_to_acag30: rewrite the type field of every atom record in
the block, leaving every other line of the document untouched. -/
def remap_to_acag30 (lines : List TLine) (atoms_start : Nat) (atoms_end : Int)
    (chain_len : Int) : Except Err (List TLine) :=
  remapGo chain_len lines
    (List.range' atoms_start (atoms_end - (atoms_start : Int)).toNat) lines

/-- The four-stage pipeline of `main`, up to the point where the output
file would be written. -/
def pipeline (lines : List TLine) : Except Err (List TLine) :=
  match parse_num_atoms lines with
  | .error e => .error e
  | .ok natoms =>
    match find_atoms_block lines natoms with
    | .error e => .error e
    | .ok (atoms_start, atoms_end) =>
      match infer_chain_length_and_count lines atoms_start atoms_end with
      | .error e => .error e
      | .ok (chain_len, _n_chains) =>
        remap_to_acag30 lines atoms_start atoms_end chain_len

/-- The content `main` writes to the output file, if any: the source
calls `write_text` exactly once, after all four stages have succeeded,
so the written content is the concatenation of the remapped lines and
nothing is written on any failure. -/
def writtenFile (lines : List TLine) : Option (List Char) :=
  match pipeline lines with
  | .ok nl => some nl.flatten
  | .error _ => none

/-! ### Lemmas about the string model -/

theorem pySplitGo_tokens_good (l : List Char) :
    ∀ acc : List Char, (∀ c ∈ acc, pySpace c = false) →
      ∀ t ∈ pySplitGo l acc, goodTok t := by
  induction l with
  | nil =>
    intro acc hacc t ht
    simp only [pySplitGo] at ht
    split at ht
    · simp at ht
    · rename_i hne
      simp only [List.mem_singleton] at ht
      subst ht
      refine ⟨by simpa using hne, ?_⟩
      intro c hc
      exact hacc c (List.mem_reverse.mp hc)
  | cons c cs ih =>
    intro acc hacc t ht
    simp only [pySplitGo] at ht
    by_cases hsp : pySpace c
    · rw [if_pos hsp] at ht
      split at ht
      · exact ih [] (by simp) t ht
      · rename_i hne
        rcases List.mem_cons.mp ht with h | h
        · subst h
          refine ⟨by simpa using hne, ?_⟩
          intro d hd
          exact hacc d (List.mem_reverse.mp hd)
        · exact ih [] (by simp) t h
    · rw [if_neg hsp] at ht
      refine ih (c :: acc) ?_ t ht
      intro d hd
      rcases List.mem_cons.mp hd with h | h
      · subst h; exact Bool.eq_false_iff.mpr hsp
      · exact hacc d h

theorem pySplit_tokens_good (l : TLine) : ∀ t ∈ pySplit l, goodTok t :=
  pySplitGo_tokens_good l [] (by simp)

theorem pySplitGo_append_nonspace (t : List Char) :
    ∀ (l acc : List Char), (∀ c ∈ t, pySpace c = false) →
      pySplitGo (t ++ l) acc = pySplitGo l (t.reverse ++ acc) := by
  induction t with
  | nil => intro l acc _; simp
  | cons c cs ih =>
    intro l acc ht
    have hc : pySpace c = false := ht c (by simp)
    simp only [List.cons_append, pySplitGo, hc, Bool.false_eq_true, if_false]
    rw [List.append_eq, ih l (c :: acc) (fun d hd => ht d (List.mem_cons_of_mem c hd))]
    simp

theorem pySplitGo_all_space (w : List Char) :
    ∀ acc : List Char, (∀ c ∈ w, pySpace c = true) →
      pySplitGo w acc = if acc = [] then [] else [acc.reverse] := by
  induction w with
  | nil => intro acc _; rfl
  | cons c cs ih =>
    intro acc hw
    have hc : pySpace c = true := hw c (by simp)
    have hcs : ∀ d ∈ cs, pySpace d = true := fun d hd => hw d (List.mem_cons_of_mem c hd)
    simp only [pySplitGo, hc, if_true]
    split
    · rw [ih [] hcs]; simp
    · rw [ih [] hcs]; simp

theorem pySplitGo_append_space (l : List Char) :
    ∀ (w acc : List Char), (∀ c ∈ w, pySpace c = true) →
      pySplitGo (l ++ w) acc = pySplitGo l acc := by
  induction l with
  | nil =>
    intro w acc hw
    rw [List.nil_append, pySplitGo_all_space w acc hw]
    rfl
  | cons c cs ih =>
    intro w acc hw
    simp only [List.cons_append, pySplitGo]
    by_cases hc : pySpace c
    · rw [if_pos hc, if_pos hc]
      split
      · rw [List.append_eq, ih w [] hw]
      · rw [List.append_eq, ih w [] hw]
    · rw [if_neg hc, if_neg hc, List.append_eq, ih w (c :: acc) hw]

theorem pySplitGo_dropWhile (l : List Char) :
    pySplitGo (l.dropWhile pySpace) [] = pySplitGo l [] := by
  induction l with
  | nil => rfl
  | cons c cs ih =>
    by_cases hc : pySpace c
    · rw [List.dropWhile_cons_of_pos hc, ih]
      simp [pySplitGo, hc]
    · rw [List.dropWhile_cons_of_neg hc]

theorem mem_takeWhile_sat {p : α → Bool} (l : List α) :
    ∀ c ∈ l.takeWhile p, p c = true := by
  induction l with
  | nil => intro c hc; simp at hc
  | cons a as ih =>
    intro c hc
    by_cases ha : p a
    · rw [List.takeWhile_cons_of_pos ha] at hc
      rcases List.mem_cons.mp hc with h | h
      · subst h; exact ha
      · exact ih c h
    · rw [List.takeWhile_cons_of_neg ha] at hc
      simp at hc

theorem stripTrail_decomp (m : List Char) :
    ∃ w, (∀ c ∈ w, pySpace c = true) ∧ m = stripTrail m ++ w := by
  refine ⟨(m.reverse.takeWhile pySpace).reverse, ?_, ?_⟩
  · intro c hc
    exact mem_takeWhile_sat m.reverse c (List.mem_reverse.mp hc)
  · unfold stripTrail
    calc m = m.reverse.reverse := by rw [List.reverse_reverse]
    _ = (m.reverse.takeWhile pySpace ++ m.reverse.dropWhile pySpace).reverse := by
          rw [List.takeWhile_append_dropWhile]
    _ = (m.reverse.dropWhile pySpace).reverse ++ (m.reverse.takeWhile pySpace).reverse := by
          rw [List.reverse_append]

theorem pySplit_pyStrip (l : TLine) : pySplit (pyStrip l) = pySplit l := by
  unfold pySplit pyStrip
  obtain ⟨w, hw, hdecomp⟩ := stripTrail_decomp (l.dropWhile pySpace)
  calc pySplitGo (stripTrail (l.dropWhile pySpace)) []
      = pySplitGo (stripTrail (l.dropWhile pySpace) ++ w) [] :=
        (pySplitGo_append_space _ w [] hw).symm
    _ = pySplitGo (l.dropWhile pySpace) [] := by rw [← hdecomp]
    _ = pySplitGo l [] := pySplitGo_dropWhile l

theorem dropWhile_append_singleton {p : α → Bool} (xs : List α) (c : α) (hc : p c = false) :
    (xs ++ [c]).dropWhile p = xs.dropWhile p ++ [c] := by
  induction xs with
  | nil => simp [List.dropWhile, hc]
  | cons a as ih =>
    by_cases ha : p a
    · rw [List.cons_append, List.dropWhile_cons_of_pos ha, List.dropWhile_cons_of_pos ha, ih]
    · rw [List.cons_append, List.dropWhile_cons_of_neg ha, List.dropWhile_cons_of_neg ha]
      simp

theorem stripTrail_cons_nonspace (c : Char) (rest : List Char) (hc : pySpace c = false) :
    stripTrail (c :: rest) = c :: stripTrail rest := by
  unfold stripTrail
  rw [List.reverse_cons, dropWhile_append_singleton rest.reverse c hc, List.reverse_append]
  rfl

theorem pyStrip_cons_nonspace (c : Char) (rest : List Char) (hc : pySpace c = false) :
    pyStrip (c :: rest) = c :: stripTrail rest := by
  unfold pyStrip
  rw [List.dropWhile_cons_of_neg (by simp [hc]), stripTrail_cons_nonspace c rest hc]

theorem pySplitGo_first_token (l : List Char) :
    ∀ acc : List Char, acc ≠ [] →
      ∃ u rest, pySplitGo l acc = (acc.reverse ++ u) :: rest := by
  induction l with
  | nil =>
    intro acc hacc
    refine ⟨[], [], ?_⟩
    simp [pySplitGo, hacc]
  | cons c cs ih =>
    intro acc hacc
    simp only [pySplitGo]
    by_cases hc : pySpace c
    · rw [if_pos hc, if_neg hacc]
      exact ⟨[], pySplitGo cs [], by simp⟩
    · rw [if_neg hc]
      obtain ⟨u, rest, hu⟩ := ih (c :: acc) (by simp)
      refine ⟨c :: u, rest, ?_⟩
      rw [hu]
      simp

theorem pySplit_join (ts : List TLine) (hne : ts ≠ [])
    (hgood : ∀ t ∈ ts, goodTok t) :
    pySplit (pyJoinSpace ts ++ ['\n']) = ts := by
  induction ts with
  | nil => exact absurd rfl hne
  | cons t ts ih =>
    obtain ⟨htne, htw⟩ := hgood t (by simp)
    cases ts with
    | nil =>
      unfold pySplit
      rw [pyJoinSpace, pySplitGo_append_nonspace t ['\n'] [] htw]
      have hrev : t.reverse ≠ [] := by simpa using htne
      simp [pySplitGo, pySpace, hrev]
    | cons t' ts' =>
      unfold pySplit
      have hjoin : pyJoinSpace (t :: t' :: ts') ++ ['\n']
          = t ++ (' ' :: (pyJoinSpace (t' :: ts') ++ ['\n'])) := by
        rw [pyJoinSpace]; simp
      rw [hjoin, pySplitGo_append_nonspace t _ [] htw]
      have hrev : t.reverse ++ [] ≠ [] := by simpa using htne
      have hsp : pySpace ' ' = true := by decide
      simp only [pySplitGo, hsp, if_true, if_neg hrev]
      have := ih (by simp) (fun u hu => hgood u (List.mem_cons_of_mem t hu))
      unfold pySplit at this
      rw [this]
      simp

theorem dropWhile_head_false {p : α → Bool} {l : List α} {c : α} {rest : List α}
    (h : l.dropWhile p = c :: rest) : p c = false := by
  have := List.head_dropWhile_not p l (by simp [h])
  simpa [h] using this

theorem getD_set_ne {l : List α} {i j : Nat} (h : i ≠ j) (v : α) (d : α) :
    (l.set i v).getD j d = l.getD j d := by
  simp [List.getD_eq_getElem?_getD, List.getElem?_set_ne h]

theorem getD_set_self {l : List α} {j : Nat} (h : j < l.length) (v : α) (d : α) :
    (l.set j v).getD j d = v := by
  simp [List.getD_eq_getElem?_getD, List.getElem?_set_self h]

/-- The token the remapper writes into field 2 is always a decimal
digit, hence a well-formed token. -/
theorem pyStr_pattern_good (k : Nat) : goodTok (pyStr (base_pattern.getD k 0)) := by
  match k with
  | 0 => decide
  | 1 => decide
  | 2 => decide
  | 3 => decide
  | n + 4 =>
    show goodTok (pyStr ((0 : Int)))
    decide

theorem patternType_good (atom_id chain_len : Int) :
    goodTok (pyStr (patternType atom_id chain_len)) :=
  pyStr_pattern_good _

/-- A non-skipped line splits into a first token whose head is the first
character of the stripped line: nonblank and not `#`. -/
theorem record_line_facts {raw : TLine} (h : skipLine raw = false) :
    ∃ c u tl, pySplit raw = (c :: u) :: tl ∧ pySpace c = false ∧ c ≠ '#' := by
  unfold skipLine at h
  rcases hm : List.dropWhile pySpace raw with _ | ⟨c, rest⟩
  · exfalso
    have : pyStrip raw = [] := by
      unfold pyStrip
      rw [hm]
      rfl
    rw [this] at h
    simp at h
  · have hc : pySpace c = false := dropWhile_head_false hm
    have hstrip : pyStrip raw = c :: stripTrail rest := by
      unfold pyStrip
      rw [hm, stripTrail_cons_nonspace c rest hc]
    rw [hstrip] at h
    have hch : c ≠ '#' := by simpa using h
    obtain ⟨u, tl, hu⟩ := pySplitGo_first_token rest [c] (by simp)
    refine ⟨c, u, tl, ?_, hc, hch⟩
    unfold pySplit
    rw [← pySplitGo_dropWhile raw, hm]
    simpa [pySplitGo, hc] using hu

/-- A line whose head character is neither whitespace nor `#` is not
skipped. -/
theorem skipLine_cons_false {c : Char} {w : List Char}
    (hc : pySpace c = false) (hch : c ≠ '#') : skipLine (c :: w) = false := by
  unfold skipLine
  rw [pyStrip_cons_nonspace c w hc]
  simpa using hch

/-! ### Lemmas about the remap loop -/

theorem remapLine_skip {chain_len : Int} {raw : TLine} (h : skipLine raw = true) :
    remapLine chain_len raw = .ok raw := by
  unfold remapLine
  rw [h]
  rfl

theorem remapLine_ok_inv {chain_len : Int} {raw nl : TLine}
    (h : remapLine chain_len raw = .ok nl) :
    (skipLine raw = true ∧ nl = raw) ∨
      (skipLine raw = false ∧ 6 ≤ (pySplit raw).length ∧ chain_len ≠ 0 ∧
        ∃ atom_id, pyToInt ((pySplit raw).getD 0 []) = some atom_id ∧
          nl = pyJoinSpace ((pySplit raw).set 2
                 (pyStr (patternType atom_id chain_len))) ++ ['\n']) := by
  unfold remapLine at h
  rcases hs : skipLine raw with _ | _
  · rw [hs] at h
    simp only [Bool.false_eq_true, if_false] at h
    split at h
    · cases h
    · rename_i hlen
      split at h
      · cases h
      · rename_i atom_id hid
        split at h
        · cases h
        · rename_i hcl
          refine .inr ⟨rfl, by omega, hcl, atom_id, hid, ?_⟩
          cases h
          rfl
  · rw [hs] at h
    simp only [if_true] at h
    cases h
    exact .inl ⟨rfl, rfl⟩

theorem remapLine_eq_malformed {chain_len : Int} {raw : TLine} :
    remapLine chain_len raw = .error .MalformedRecord ↔
      skipLine raw = false ∧ (pySplit raw).length < 6 := by
  unfold remapLine
  constructor
  · intro h
    rcases hs : skipLine raw with _ | _
    · rw [hs] at h
      simp only [Bool.false_eq_true, if_false] at h
      split at h
      · exact ⟨rfl, by assumption⟩
      · split at h
        · cases h
        · split at h
          · cases h
          · cases h
    · rw [hs] at h
      simp at h
  · rintro ⟨hs, hlen⟩
    rw [hs]
    simp [hlen]

theorem remapLine_ok_record {chain_len : Int} {raw : TLine}
    (hs : skipLine raw = false) (hlen : ¬ (pySplit raw).length < 6)
    {atom_id : Int} (hid : pyToInt ((pySplit raw).getD 0 []) = some atom_id)
    (hcl : chain_len ≠ 0) :
    remapLine chain_len raw =
      .ok (pyJoinSpace ((pySplit raw).set 2
            (pyStr (patternType atom_id chain_len))) ++ ['\n']) := by
  unfold remapLine
  rw [hs]
  simp only [Bool.false_eq_true, if_false, if_neg hlen, hid, if_neg hcl]

theorem remapLine_ne_zde {chain_len : Int} (raw : TLine) (hcl : chain_len ≠ 0) :
    remapLine chain_len raw ≠ .error .ZeroDivisionErr := by
  intro h
  rcases hs : skipLine raw with _ | _
  · by_cases hlen : (pySplit raw).length < 6
    · have hm : remapLine chain_len raw = .error .MalformedRecord :=
        remapLine_eq_malformed.mpr ⟨hs, hlen⟩
      rw [hm] at h
      cases h
    · rcases hid : pyToInt ((pySplit raw).getD 0 []) with _ | atom_id
      · have hp : remapLine chain_len raw = .error .IntParseErr := by
          unfold remapLine
          rw [hs]
          simp only [Bool.false_eq_true, if_false, if_neg hlen, hid]
      
        rw [hp] at h
        cases h
      · rw [remapLine_ok_record hs hlen hid hcl] at h
        cases h
  · rw [remapLine_skip hs] at h
    cases h

theorem remapGo_length {chain_len : Int} {orig : List TLine} (is : List Nat) :
    ∀ {acc out : List TLine}, remapGo chain_len orig is acc = .ok out →
      out.length = acc.length := by
  induction is with
  | nil =>
    intro acc out h
    unfold remapGo at h
    cases h
    rfl
  | cons i is ih =>
    intro acc out h
    unfold remapGo at h
    split at h
    · cases h
    · have := ih h
      rw [this, List.length_set]

theorem remapGo_getD_not_mem {chain_len : Int} {orig : List TLine} (is : List Nat) :
    ∀ {acc out : List TLine} {j : Nat}, j ∉ is →
      remapGo chain_len orig is acc = .ok out → out.getD j [] = acc.getD j [] := by
  induction is with
  | nil =>
    intro acc out j _ h
    unfold remapGo at h
    cases h
    rfl
  | cons i is ih =>
    intro acc out j hj h
    unfold remapGo at h
    split at h
    · cases h
    · have hji : j ≠ i := fun hh => hj (hh ▸ List.mem_cons_self i is)
      have hjs : j ∉ is := fun hh => hj (List.mem_cons_of_mem i hh)
      rw [ih hjs h, getD_set_ne (fun hh => hji hh.symm)]

theorem remapGo_getD_mem {chain_len : Int} {orig : List TLine} (is : List Nat) :
    ∀ {acc out : List TLine} {i : Nat}, is.Nodup → i ∈ is →
      remapGo chain_len orig is acc = .ok out →
      ∃ nl, remapLine chain_len (orig.getD i []) = .ok nl ∧
        (i < acc.length → out.getD i [] = nl) := by
  induction is with
  | nil =>
    intro acc out i _ hi
    simp at hi
  | cons k is ih =>
    intro acc out i hnd hi h
    unfold remapGo at h
    split at h
    · cases h
    · rename_i nl hnl
      rcases List.mem_cons.mp hi with hik | his
    
      · subst hik
        refine ⟨nl, hnl, ?_⟩
        intro hlt
        have hnotin : i ∉ is := (List.nodup_cons.mp hnd).1
        rw [remapGo_getD_not_mem is hnotin h, getD_set_self hlt]
      · obtain ⟨nl', hnl', hout⟩ := ih (List.nodup_cons.mp hnd).2 his h
        refine ⟨nl', hnl', ?_⟩
        intro hlt
        exact hout (by rw [List.length_set]; exact hlt)

theorem remapGo_malformed_sound {chain_len : Int} {orig : List TLine} (is : List Nat) :
    ∀ {acc : List TLine}, remapGo chain_len orig is acc = .error .MalformedRecord →
      ∃ i ∈ is, skipLine (orig.getD i []) = false ∧ (pySplit (orig.getD i [])).length < 6 := by
  induction is with
  | nil =>
    intro acc h
    unfold remapGo at h
    cases h
  | cons k is ih =>
    intro acc h
    unfold remapGo at h
    split at h
    · rename_i e he
      cases h
      obtain ⟨hs, hlen⟩ := remapLine_eq_malformed.mp he
      exact ⟨k, List.mem_cons_self k is, hs, hlen⟩
    · obtain ⟨i, hi, hrest⟩ := ih h
      exact ⟨i, List.mem_cons_of_mem k hi, hrest⟩

theorem remapGo_malformed_complete {chain_len : Int} {orig : List TLine}
    (hcl : chain_len ≠ 0) (is : List Nat) :
    ∀ acc : List TLine,
      (∀ i ∈ is, skipLine (orig.getD i []) = false → 6 ≤ (pySplit (orig.getD i [])).length →
        (pyToInt ((pySplit (orig.getD i [])).getD 0 [])).isSome = true) →
      (∃ i ∈ is, skipLine (orig.getD i []) = false ∧ (pySplit (orig.getD i [])).length < 6) →
      remapGo chain_len orig is acc = .error .MalformedRecord := by
  induction is with
  | nil =>
    intro acc _ hex
    simp at hex
  | cons k is ih =>
    intro acc hparse hex
    by_cases hk : skipLine (orig.getD k []) = false ∧ (pySplit (orig.getD k [])).length < 6
    · unfold remapGo
      rw [remapLine_eq_malformed.mpr hk]
    · rcases hsk : skipLine (orig.getD k []) with _ | _
      · have hklen : ¬ (pySplit (orig.getD k [])).length < 6 := fun hh => hk ⟨hsk, hh⟩
        have hidk := hparse k (List.mem_cons_self k is) hsk (by omega)
        obtain ⟨atom_id, hid⟩ := Option.isSome_iff_exists.mp hidk
        unfold remapGo
        rw [remapLine_ok_record hsk hklen hid hcl]
        refine ih _ (fun i hi => hparse i (List.mem_cons_of_mem k hi)) ?_
        obtain ⟨i, hi, hrest⟩ := hex
        rcases List.mem_cons.mp hi with hik | his
        · subst hik
          exact absurd hrest.2 hklen
        · exact ⟨i, his, hrest⟩
      · unfold remapGo
        rw [remapLine_skip hsk]
        refine ih _ (fun i hi => hparse i (List.mem_cons_of_mem k hi)) ?_
        obtain ⟨i, hi, hrest⟩ := hex
        rcases List.mem_cons.mp hi with hik | his
        · subst hik
          rw [hsk] at hrest
          cases hrest.1
        · exact ⟨i, his, hrest⟩

theorem remapGo_ne_zde {chain_len : Int} {orig : List TLine}
    (hcl : chain_len ≠ 0) (is : List Nat) :
    ∀ acc : List TLine, remapGo chain_len orig is acc ≠ .error .ZeroDivisionErr := by
  induction is with
  | nil =>
    intro acc h
    unfold remapGo at h
    cases h
  | cons k is ih =>
    intro acc h
    unfold remapGo at h
    split at h
    · rename_i e he
      cases h
      exact remapLine_ne_zde _ hcl he
    · exact ih _ h

/-! ### Lemmas about chain inference -/

theorem collectStep_skip {l : TLine} (h : skipLine l = true) : collectStep l = .ok none := by
  unfold collectStep
  rw [h]
  rfl

theorem collectStep_short {l : TLine} (h1 : skipLine l = false)
    (h2 : (pySplit (pyStrip l)).length < 3) : collectStep l = .ok none := by
  unfold collectStep
  rw [h1]
  simp only [Bool.false_eq_true, if_false, if_pos h2]

theorem collectStep_parse {l : TLine} (h1 : skipLine l = false)
    (h2 : ¬ (pySplit (pyStrip l)).length < 3) :
    collectStep l =
      match pyToInt ((pySplit (pyStrip l)).getD 1 []) with
      | none => .error Err.IntParseErr
      | some m => .ok (some m) := by
  unfold collectStep
  rw [h1]
  simp only [Bool.false_eq_true, if_false, if_neg h2]

theorem collectStep_ok_none_iff {l : TLine} :
    collectStep l = .ok none ↔
      (skipLine l = true ∨ (pySplit (pyStrip l)).length < 3) := by
  constructor
  · intro h
    rcases hs : skipLine l with _ | _
    · by_cases hlen : (pySplit (pyStrip l)).length < 3
      · exact .inr hlen
      · rw [collectStep_parse hs hlen] at h
        rcases hid : pyToInt ((pySplit (pyStrip l)).getD 1 []) with _ | m
        · rw [hid] at h
          cases h
        · rw [hid] at h
          simp at h
    · exact .inl rfl
  · rintro (h | h)
    · exact collectStep_skip h
    · rcases hs : skipLine l with _ | _
      · exact collectStep_short hs h
      · exact collectStep_skip hs

theorem collectStep_ok_some_iff {l : TLine} {m : Int} :
    collectStep l = .ok (some m) ↔
      (skipLine l = false ∧ ¬ (pySplit (pyStrip l)).length < 3 ∧
        pyToInt ((pySplit (pyStrip l)).getD 1 []) = some m) := by
  constructor
  · intro h
    rcases hs : skipLine l with _ | _
    · by_cases hlen : (pySplit (pyStrip l)).length < 3
      · rw [collectStep_short hs hlen] at h
        simp at h
      · rw [collectStep_parse hs hlen] at h
        rcases hid : pyToInt ((pySplit (pyStrip l)).getD 1 []) with _ | m'
        · rw [hid] at h
          cases h
        · rw [hid] at h
          simp only [Except.ok.injEq, Option.some.injEq] at h
          exact ⟨rfl, hlen, congrArg some h⟩
    · rw [collectStep_skip hs] at h
      simp at h
  · rintro ⟨hs, hlen, hid⟩
    rw [collectStep_parse hs hlen, hid]

theorem collectStep_error_iff {l : TLine} {e : Err} :
    collectStep l = .error e ↔
      (e = .IntParseErr ∧ skipLine l = false ∧ ¬ (pySplit (pyStrip l)).length < 3 ∧
        pyToInt ((pySplit (pyStrip l)).getD 1 []) = none) := by
  constructor
  · intro h
    rcases hs : skipLine l with _ | _
    · by_cases hlen : (pySplit (pyStrip l)).length < 3
      · rw [collectStep_short hs hlen] at h
        cases h
      · rw [collectStep_parse hs hlen] at h
        rcases hid : pyToInt ((pySplit (pyStrip l)).getD 1 []) with _ | m'
        · rw [hid] at h
          cases h
          exact ⟨rfl, rfl, hlen, rfl⟩
        · rw [hid] at h
          cases h
    · rw [collectStep_skip hs] at h
      cases h
  · rintro ⟨he, hs, hlen, hid⟩
    rw [collectStep_parse hs hlen, hid, he]

theorem collectGo_ne_emptyblock (orig : List TLine) (is : List Nat) :
    collectGo orig is ≠ .error .EmptyBlock := by
  induction is with
  | nil =>
    intro h
    cases h
  | cons k is ih =>
    intro h
    unfold collectGo at h
    split at h
    · rename_i e he
      cases h
      exact absurd (collectStep_error_iff.mp he).1 (by intro hh; cases hh)
    · exact ih h
    · split at h
      · cases h
        rename_i he
        exact ih he
      · cases h

theorem collectGo_congr (a b : List TLine) (is : List Nat)
    (h : ∀ i ∈ is, collectStep (b.getD i []) = collectStep (a.getD i [])) :
    collectGo b is = collectGo a is := by
  induction is with
  | nil => rfl
  | cons k is ih =>
    have hk := h k (List.mem_cons_self k is)
    have hrest := ih (fun i hi => h i (List.mem_cons_of_mem k hi))
    unfold collectGo
    rw [hk, hrest]

/-- The characterization of the collected molecule ids: a line is
skipped exactly when it is blank, comment-prefixed, or has fewer than 3
fields; every other line contributes its parsed second field. -/
theorem collectGo_ok_inv (orig : List TLine) (is : List Nat) :
    ∀ {ids : List Int}, collectGo orig is = .ok ids →
      ids = is.filterMap (fun i =>
          if skipLine (orig.getD i []) = true ∨
              (pySplit (pyStrip (orig.getD i []))).length < 3 then none
          else pyToInt ((pySplit (pyStrip (orig.getD i []))).getD 1 [])) ∧
        ∀ i ∈ is, skipLine (orig.getD i []) = false →
          ¬ (pySplit (pyStrip (orig.getD i []))).length < 3 →
          (pyToInt ((pySplit (pyStrip (orig.getD i []))).getD 1 [])).isSome = true := by
  induction is with
  | nil =>
    intro ids h
    cases h
    exact ⟨rfl, by simp⟩
  | cons k is ih =>
    intro ids h
    unfold collectGo at h
    split at h
    · cases h
    · rename_i hstep
      obtain ⟨hids, hparse⟩ := ih h
      have hcond := collectStep_ok_none_iff.mp hstep
      refine ⟨?_, ?_⟩
      · rw [List.filterMap_cons, if_pos hcond, hids]
      · intro i hi hskip hlen
        rcases List.mem_cons.mp hi with hik | his
        · subst hik
          rcases hcond with hcond | hcond
          · rw [hskip] at hcond
            cases hcond
          · exact absurd hcond hlen
        · exact hparse i his hskip hlen
    · rename_i m hstep
      split at h
      · cases h
      · rename_i ms hms
        cases h
        obtain ⟨hids, hparse⟩ := ih hms
        obtain ⟨hskipk, hlenk, hidk⟩ := collectStep_ok_some_iff.mp hstep
        have hcond : ¬ (skipLine (orig.getD k []) = true ∨
            (pySplit (pyStrip (orig.getD k []))).length < 3) := by
          rw [hskipk]
          simp only [Bool.false_eq_true, false_or]
          exact hlenk
        refine ⟨?_, ?_⟩
        · rw [List.filterMap_cons, if_neg hcond, hidk, hids]
        · intro i hi hskip hlen
          rcases List.mem_cons.mp hi with hik | his
          · subst hik
            rw [hidk]
            rfl
          · exact hparse i his hskip hlen

theorem pyMax_mem (xs : List Int) : ∀ cur : Int, pyMax cur xs = cur ∨ pyMax cur xs ∈ xs := by
  induction xs with
  | nil => intro cur; exact .inl rfl
  | cons x xs ih =>
    intro cur
    unfold pyMax
    rcases ih (max cur x) with h | h
    · rw [h]
      rcases max_cases cur x with ⟨hm, _⟩ | ⟨hm, _⟩
      · exact .inl hm
      · refine .inr ?_
        rw [hm]
        exact List.mem_cons_self x xs
    · exact .inr (List.mem_cons_of_mem x h)

theorem le_pyMax_cur (xs : List Int) : ∀ cur : Int, cur ≤ pyMax cur xs := by
  induction xs with
  | nil => intro cur; exact le_refl cur
  | cons x xs ih =>
    intro cur
    unfold pyMax
    exact le_trans (le_max_left cur x) (ih (max cur x))

theorem le_pyMax_of_mem (xs : List Int) :
    ∀ (cur x : Int), x ∈ xs → x ≤ pyMax cur xs := by
  induction xs with
  | nil => intro cur x hx; simp at hx
  | cons y ys ih =>
    intro cur x hx
    unfold pyMax
    rcases List.mem_cons.mp hx with h | h
    · subst h
      exact le_trans (le_max_right cur x) (le_pyMax_cur ys (max cur x))
    · exact ih (max cur y) x h

/-- Divisibility is exactly a vanishing floor-remainder, for any divisor
(including 0, where both sides degenerate consistently). -/
theorem fmod_eq_zero_iff_dvd (a b : Int) : a.fmod b = 0 ↔ b ∣ a := by
  constructor
  · intro h
    refine ⟨a.fdiv b, ?_⟩
    have := Int.fmod_add_fdiv a b
    rw [h, zero_add] at this
    exact this.symm
  · rintro ⟨k, rfl⟩
    exact Int.mul_fmod_right b k

/-- Inversion of a successful chain inference. -/
theorem infer_ok_inv {lines : List TLine} {s : Nat} {e : Int} {cl nc : Int}
    (h : infer_chain_length_and_count lines s e = .ok (cl, nc)) :
    ∃ m ms, collectGo lines (List.range' s (e - (s : Int)).toNat) = .ok (m :: ms) ∧
      nc = pyMax m ms ∧ nc ≠ 0 ∧ (e - (s : Int)).fmod nc = 0 ∧
      cl = (e - (s : Int)).fdiv nc := by
  unfold infer_chain_length_and_count at h
  split at h
  · cases h
  · cases h
  · rename_i m ms hcol
    split at h
    · cases h
    · rename_i hnc
      split at h
      · cases h
      · rename_i hmod
        cases h
        push_neg at hmod
        exact ⟨m, ms, hcol, rfl, hnc, hmod, rfl⟩

/-- On the failure side: with a nonzero maximum the only arithmetic
failure is `IndivisibleChainCount`, exactly on non-divisibility. -/
theorem infer_indivisible_iff {lines : List TLine} {s : Nat} {e : Int} {m : Int}
    {ms : List Int}
    (hcol : collectGo lines (List.range' s (e - (s : Int)).toNat) = .ok (m :: ms))
    (hnz : pyMax m ms ≠ 0) :
    infer_chain_length_and_count lines s e = .error .IndivisibleChainCount ↔
      ¬ (pyMax m ms ∣ (e - (s : Int))) := by
  unfold infer_chain_length_and_count
  rw [hcol]
  simp only [if_neg hnz]
  constructor
  · intro h
    split at h
    · rename_i hmod
      rw [← fmod_eq_zero_iff_dvd]
      exact hmod
    · cases h
  · intro h
    rw [← fmod_eq_zero_iff_dvd] at h
    simp only [if_pos h]

theorem infer_zero_max {lines : List TLine} {s : Nat} {e : Int} {m : Int}
    {ms : List Int}
    (hcol : collectGo lines (List.range' s (e - (s : Int)).toNat) = .ok (m :: ms))
    (hz : pyMax m ms = 0) :
    infer_chain_length_and_count lines s e = .error .ZeroDivisionErr := by
  unfold infer_chain_length_and_count
  rw [hcol]
  simp only [if_pos hz]

theorem infer_emptyblock_iff {lines : List TLine} {s : Nat} {e : Int} {ids : List Int}
    (hcol : collectGo lines (List.range' s (e - (s : Int)).toNat) = .ok ids) :
    infer_chain_length_and_count lines s e = .error .EmptyBlock ↔ ids = [] := by
  unfold infer_chain_length_and_count
  rw [hcol]
  cases ids with
  | nil => simp
  | cons m ms =>
    simp only [List.cons_ne_nil, iff_false]
    intro h
    split at h
    · cases h
    · split at h
      · cases h
      · cases h

/-! ### Lemmas about the block locator -/

theorem findAtomsHeaderIdx_none_iff (lines : List TLine) :
    findAtomsHeaderIdx lines = none ↔
      ∀ j, j < lines.length → isAtomsHeader (lines.getD j []) = false := by
  induction lines with
  | nil => simp [findAtomsHeaderIdx]
  | cons l ls ih =>
    unfold findAtomsHeaderIdx
    by_cases hc : isAtomsHeader l
    · rw [if_pos hc]
      simp only [reduceCtorEq, false_iff]
      push_neg
      exact ⟨0, by simp, by simpa using hc⟩
    · rw [if_neg hc]
      simp only [Option.map_eq_none']
      rw [ih]
      constructor
      · intro h j hj
        cases j with
        | zero => simpa using Bool.eq_false_iff.mpr hc
        | succ j' => exact h j' (by simpa using hj)
      · intro h j hj
        exact h (j + 1) (by simpa using hj)

theorem findAtomsHeaderIdx_some_iff (lines : List TLine) :
    ∀ i : Nat, findAtomsHeaderIdx lines = some i ↔
      (i < lines.length ∧ isAtomsHeader (lines.getD i []) = true ∧
        ∀ j, j < i → isAtomsHeader (lines.getD j []) = false) := by
  induction lines with
  | nil => intro i; simp [findAtomsHeaderIdx]
  | cons l ls ih =>
    intro i
    unfold findAtomsHeaderIdx
    by_cases hc : isAtomsHeader l
    · rw [if_pos hc]
      cases i with
      | zero =>
        simp only [Option.some.injEq]
        constructor
        · intro _
          exact ⟨by simp, by simpa using hc, by simp⟩
        · intro _
          trivial
      | succ i' =>
        simp only [Option.some.injEq]
        constructor
        · intro h
          cases h
        · rintro ⟨_, _, hall⟩
          have := hall 0 (Nat.succ_pos i')
          rw [List.getD_cons_zero] at this
          rw [this] at hc
          cases hc
    · rw [if_neg hc]
      cases i with
      | zero =>
        simp only [Option.map_eq_some', reduceCtorEq, and_false, exists_const, false_iff]
        intro h
        rw [List.getD_cons_zero] at h
        exact hc (by simp [h.2.1])
      | succ i' =>
        constructor
        · intro h
          obtain ⟨a, ha, hae⟩ := Option.map_eq_some'.mp h
          have ha' : i' = a := by omega
          subst ha'
          obtain ⟨hlt, hhd, hall⟩ := (ih i').mp ha
          refine ⟨by simpa using hlt, by simpa using hhd, ?_⟩
          intro j hj
          cases j with
          | zero => simpa using Bool.eq_false_iff.mpr hc
          | succ j' =>
            rw [List.getD_cons_succ]
            exact hall j' (by omega)
        · rintro ⟨hlt, hhd, hall⟩
          rw [Option.map_eq_some']
          refine ⟨i', ?_, rfl⟩
          rw [ih i']
          rw [List.getD_cons_succ] at hhd
          refine ⟨by simpa using hlt, hhd, ?_⟩
          intro j hj
          have := hall (j + 1) (by omega)
          rw [List.getD_cons_succ] at this
          exact this

theorem find_ok_inv {lines : List TLine} {natoms : Int} {s : Nat} {e : Int}
    (h : find_atoms_block lines natoms = .ok (s, e)) :
    (e : Int) ≤ (lines.length : Int) ∧
      ∃ i, findAtomsHeaderIdx lines = some i ∧ s = i + 2 ∧
        e = (i : Int) + 2 + natoms := by
  unfold find_atoms_block at h
  split at h
  · cases h
  · rename_i i hi
    split at h
    · cases h
    · rename_i hle
      cases h
      push_neg at hle
      refine ⟨by push_cast at hle ⊢; omega, i, hi, rfl, by push_cast; ring⟩

theorem mem_block_range_iff {s : Nat} {e : Int} {i : Nat} :
    i ∈ List.range' s (e - (s : Int)).toNat ↔ ((s : Int) ≤ i ∧ (i : Int) < e) := by
  rw [List.mem_range'_1]
  omega

/-! ### The output line of a record is parsed back identically -/

theorem out_line_collectStep {raw nl v : TLine}
    (hs : skipLine raw = false) (hlen : 6 ≤ (pySplit raw).length)
    (hv : goodTok v)
    (hnl : nl = pyJoinSpace ((pySplit raw).set 2 v) ++ ['\n']) :
    collectStep nl = collectStep raw := by
  obtain ⟨c, u, tl, hsplit, hcsp, hch⟩ := record_line_facts hs
  have hgood : ∀ t ∈ (pySplit raw).set 2 v, goodTok t := by
    intro t ht
    rcases List.mem_or_eq_of_mem_set ht with hmem | hveq
    · exact pySplit_tokens_good raw t hmem
    · exact hveq ▸ hv
  have hlen' : ((pySplit raw).set 2 v).length = (pySplit raw).length := List.length_set _ _ _
  have hne : (pySplit raw).set 2 v ≠ [] := by
    intro hh
    rw [hh] at hlen'
    simp at hlen'
    omega
  have hjoin : pySplit (pyJoinSpace ((pySplit raw).set 2 v) ++ ['\n']) =
      (pySplit raw).set 2 v := pySplit_join _ hne hgood
  have hset : (pySplit raw).set 2 v = (c :: u) :: tl.set 1 v := by
    rw [hsplit]
    rfl
  have htlne : tl.set 1 v ≠ [] := by
    intro hh
    rw [hsplit] at hlen
    have : (tl.set 1 v).length = tl.length := List.length_set _ _ _
    rw [hh] at this
    simp at this
    simp [← this] at hlen
  rcases htl : tl.set 1 v with _ | ⟨t1, tl''⟩
  · exact absurd htl htlne
  · have hnlform : nl = c :: (u ++ ' ' :: (pyJoinSpace (t1 :: tl'') ++ ['\n'])) := by
      rw [hnl, hset, htl, pyJoinSpace]
      simp
    have hskipnl : skipLine nl = false := by
      rw [hnlform]
      exact skipLine_cons_false hcsp hch
    have hsplitnl : pySplit (pyStrip nl) = (pySplit raw).set 2 v := by
      rw [pySplit_pyStrip, hnl, hjoin]
    have hlennl : ¬ (pySplit (pyStrip nl)).length < 3 := by
      rw [hsplitnl, hlen']
      omega
    have hlenraw : ¬ (pySplit (pyStrip raw)).length < 3 := by
      rw [pySplit_pyStrip]
      omega
    rw [collectStep_parse hskipnl hlennl, collectStep_parse hs hlenraw]
    rw [hsplitnl, pySplit_pyStrip raw, getD_set_ne (by omega) v []]

/-- Inversion of a successful pipeline run into its four stages. -/
theorem pipeline_ok_inv {lines out : List TLine} (h : pipeline lines = .ok out) :
    ∃ (natoms : Int) (s : Nat) (e : Int) (cl nc : Int),
      parse_num_atoms lines = .ok natoms ∧
      find_atoms_block lines natoms = .ok (s, e) ∧
      infer_chain_length_and_count lines s e = .ok (cl, nc) ∧
      remap_to_acag30 lines s e cl = .ok out := by
  unfold pipeline at h
  split at h
  · cases h
  · rename_i natoms hparse
    split at h
    · cases h
    · rename_i s0 e0 hfind
      split at h
      · cases h
      · rename_i cl0 nc0 hinfer
        exact ⟨natoms, s0, e0, cl0, nc0, hparse, hfind, hinfer, h⟩

/-! ### Concrete documents used as witnesses and counterexamples -/

/-- A well-formed document: 4 atoms in 2 chains of length 2. -/
def sampleDoc : List TLine :=
  ["4 atoms\n".data, "Atoms\n".data, "\n".data,
   "1 1 1 0 0 0\n".data, "2 1 1 0 0 0\n".data,
   "3 2 1 0 0 0\n".data, "4 2 1 0 0 0\n".data]

/-- The remapped output of sampleDoc: types follow the (ACAG) pattern
truncated to chains of length 2. -/
def sampleOut : List TLine :=
  ["4 atoms\n".data, "Atoms\n".data, "\n".data,
   "1 1 1 0 0 0\n".data, "2 1 2 0 0 0\n".data,
   "3 2 1 0 0 0\n".data, "4 2 2 0 0 0\n".data]

/-- A document whose only record carries molecule id 0. -/
def zeroMaxDoc : List TLine :=
  ["1 atoms\n".data, "Atoms\n".data, "\n".data, "1 0 1 0 0 0\n".data]

/-- A document whose only block line has just 2 fields. -/
def shortFieldsDoc : List TLine :=
  ["1 atoms\n".data, "Atoms\n".data, "\n".data, "5 7\n".data]

/-- A document whose first record has an unparsable atom id and whose
second has only 4 fields. -/
def badIdDoc : List TLine :=
  ["2 atoms\n".data, "Atoms\n".data, "\n".data,
   "a 1 1 0 0 0\n".data, "1 1 1 0\n".data]

/-- A document whose only record has 4 fields. -/
def fourFieldsDoc : List TLine :=
  ["1 atoms\n".data, "Atoms\n".data, "\n".data, "1 1 1 0\n".data]

/-! ### Claim theorems -/

/-- C1: for every non-blank, non-comment record in the Atoms block, the
remapper sets field index 2 to the pattern entry
at index ((atom_id - 1) mod chain_len) mod 4 of [1,2,1,3], where
atom_id is the integer in field 0 and chain_len comes from chain
inference. -/
theorem remap_type_formula (lines : List TLine) (natoms : Int) (s : Nat) (e : Int)
    (cl nc : Int) (out : List TLine) (i : Nat) (atom_id : Int)
    (h1 : parse_num_atoms lines = .ok natoms)
    (h2 : find_atoms_block lines natoms = .ok (s, e))
    (h3 : infer_chain_length_and_count lines s e = .ok (cl, nc))
    (h4 : remap_to_acag30 lines s e cl = .ok out)
    (hs : s ≤ i) (hie : (i : Int) < e)
    (hrec : skipLine (lines.getD i []) = false)
    (hid : pyToInt ((pySplit (lines.getD i [])).getD 0 []) = some atom_id) :
    (pySplit (out.getD i [])).getD 2 [] =
      pyStr (base_pattern.getD (((atom_id - 1).fmod cl).fmod 4).toNat 0) := by
  have hmem : i ∈ List.range' s (e - (s : Int)).toNat :=
    mem_block_range_iff.mpr ⟨by exact_mod_cast hs, hie⟩
  have hiLen : i < lines.length := by
    have := (find_ok_inv h2).1
    omega
  unfold remap_to_acag30 at h4
  obtain ⟨nl, hnl, hout⟩ := remapGo_getD_mem _ (List.nodup_range' _ _) hmem h4
  have houti : out.getD i [] = nl := hout hiLen
  rcases remapLine_ok_inv hnl with ⟨hskip, _⟩ | ⟨_, hlen6, _, a, ha, hnleq⟩
  · rw [hskip] at hrec
    cases hrec
  · have haeq : a = atom_id := by
      rw [ha] at hid
      injection hid
    subst haeq
    have hgood : ∀ t ∈ (pySplit (lines.getD i [])).set 2 (pyStr (patternType a cl)), goodTok t := by
      intro t ht
      rcases List.mem_or_eq_of_mem_set ht with hmem' | hveq
      · exact pySplit_tokens_good _ t hmem'
      · exact hveq ▸ patternType_good a cl
    have hne : (pySplit (lines.getD i [])).set 2 (pyStr (patternType a cl)) ≠ [] := by
      intro hh
      have hlz : ((pySplit (lines.getD i [])).set 2 (pyStr (patternType a cl))).length = 0 := by
        rw [hh]
        rfl
      rw [List.length_set] at hlz
      omega
    rw [houti, hnleq, pySplit_join _ hne hgood, getD_set_self (by omega) _ _]
    rfl

theorem remap_type_formula_witness :
    (pySplit (sampleOut.getD 4 [])).getD 2 [] =
      pyStr (base_pattern.getD ((((2 : Int) - 1).fmod 2).fmod 4).toNat 0) :=
  remap_type_formula sampleDoc 4 3 7 2 2 sampleOut 4 2 (by decide) (by decide)
    (by decide) (by decide) (by decide) (by decide) (by decide) (by decide)

/-- C2: on a successful run the remapper touches only field index 2 of
the non-blank, non-comment lines of the Atoms block: lines outside the
block and skipped lines inside it are byte-identical to the input, and a
record line is re-serialized as its original fields single-space-joined
with a trailing newline, with only field 2 replaced. -/
theorem remap_frame (lines : List TLine) (natoms : Int) (s : Nat) (e : Int)
    (cl nc : Int) (out : List TLine)
    (h1 : parse_num_atoms lines = .ok natoms)
    (h2 : find_atoms_block lines natoms = .ok (s, e))
    (h3 : infer_chain_length_and_count lines s e = .ok (cl, nc))
    (h4 : remap_to_acag30 lines s e cl = .ok out)
    (i : Nat) :
    (¬ (s ≤ i ∧ (i : Int) < e) → out.getD i [] = lines.getD i [])
    ∧ (s ≤ i → (i : Int) < e → skipLine (lines.getD i []) = true →
        out.getD i [] = lines.getD i [])
    ∧ (s ≤ i → (i : Int) < e → skipLine (lines.getD i []) = false →
        ∃ t, out.getD i [] = pyJoinSpace ((pySplit (lines.getD i [])).set 2 t) ++ ['\n']
          ∧ (pySplit (out.getD i [])).length = (pySplit (lines.getD i [])).length
          ∧ ∀ j, j ≠ 2 → (pySplit (out.getD i [])).getD j [] =
              (pySplit (lines.getD i [])).getD j []) := by
  unfold remap_to_acag30 at h4
  refine ⟨?_, ?_, ?_⟩
  · intro hnot
    have hmem : i ∉ List.range' s (e - (s : Int)).toNat := by
      intro hmem
      obtain ⟨hsi, hie⟩ := mem_block_range_iff.mp hmem
      exact hnot ⟨by exact_mod_cast hsi, hie⟩
    exact remapGo_getD_not_mem _ hmem h4
  · intro hsi hie hskip
    have hmem : i ∈ List.range' s (e - (s : Int)).toNat :=
      mem_block_range_iff.mpr ⟨by exact_mod_cast hsi, hie⟩
    have hiLen : i < lines.length := by
      have := (find_ok_inv h2).1
      omega
    obtain ⟨nl, hnl, hout⟩ := remapGo_getD_mem _ (List.nodup_range' _ _) hmem h4
    rw [remapLine_skip hskip] at hnl
    injection hnl with hnl'
    rw [hout hiLen, ← hnl']
  · intro hsi hie hrec
    have hmem : i ∈ List.range' s (e - (s : Int)).toNat :=
      mem_block_range_iff.mpr ⟨by exact_mod_cast hsi, hie⟩
    have hiLen : i < lines.length := by
      have := (find_ok_inv h2).1
      omega
    obtain ⟨nl, hnl, hout⟩ := remapGo_getD_mem _ (List.nodup_range' _ _) hmem h4
    have houti : out.getD i [] = nl := hout hiLen
    rcases remapLine_ok_inv hnl with ⟨hskip, _⟩ | ⟨_, hlen6, _, a, _, hnleq⟩
    · rw [hskip] at hrec
      cases hrec
    · refine ⟨pyStr (patternType a cl), by rw [houti, hnleq], ?_, ?_⟩
      all_goals
        have hgood : ∀ t ∈ (pySplit (lines.getD i [])).set 2 (pyStr (patternType a cl)),
            goodTok t := by
          intro t ht
          rcases List.mem_or_eq_of_mem_set ht with hmem' | hveq
          · exact pySplit_tokens_good _ t hmem'
          · exact hveq ▸ patternType_good a cl
        have hne : (pySplit (lines.getD i [])).set 2 (pyStr (patternType a cl)) ≠ [] := by
          intro hh
          have hlz : ((pySplit (lines.getD i [])).set 2
              (pyStr (patternType a cl))).length = 0 := by
            rw [hh]
            rfl
          rw [List.length_set] at hlz
          omega
        have hsplitout : pySplit (out.getD i []) =
            (pySplit (lines.getD i [])).set 2 (pyStr (patternType a cl)) := by
          rw [houti, hnleq, pySplit_join _ hne hgood]
      · rw [hsplitout, List.length_set]
      · intro j hj
        rw [hsplitout, getD_set_ne (fun hh => hj hh.symm)]

/-- A document with a comment line inside the Atoms block. -/
def commentDoc : List TLine :=
  ["4 atoms\n".data, "Atoms\n".data, "\n".data,
   "1 1 1 0 0 0\n".data, "# mid\n".data,
   "2 2 1 0 0 0\n".data, "3 2 1 0 0 0\n".data]

/-- The remapped output of commentDoc. -/
def commentOut : List TLine :=
  ["4 atoms\n".data, "Atoms\n".data, "\n".data,
   "1 1 1 0 0 0\n".data, "# mid\n".data,
   "2 2 2 0 0 0\n".data, "3 2 1 0 0 0\n".data]

theorem remap_frame_witness :
    (commentOut.getD 0 [] = commentDoc.getD 0 []) ∧
    (commentOut.getD 4 [] = commentDoc.getD 4 []) ∧
    (∃ t, commentOut.getD 5 [] = pyJoinSpace ((pySplit (commentDoc.getD 5 [])).set 2 t) ++ ['\n']
      ∧ (pySplit (commentOut.getD 5 [])).length = (pySplit (commentDoc.getD 5 [])).length
      ∧ ∀ j, j ≠ 2 → (pySplit (commentOut.getD 5 [])).getD j [] =
          (pySplit (commentDoc.getD 5 [])).getD j []) := by
  have hall := remap_frame commentDoc 4 3 7 2 2 commentOut (by decide) (by decide)
    (by decide) (by decide)
  exact ⟨(hall 0).1 (by decide), (hall 4).2.1 (by decide) (by decide) (by decide),
    (hall 5).2.2 (by decide) (by decide) (by decide)⟩

/-- C3: any stage failure aborts the run with nothing written; the
output file content exists exactly when all four stages succeed, and
then equals the concatenated remapped lines. -/
theorem pipeline_fail_fast (lines : List TLine) :
    (∀ er : Err, pipeline lines = .error er → writtenFile lines = none)
    ∧ (∀ er : Err, parse_num_atoms lines = .error er → writtenFile lines = none)
    ∧ (∀ (natoms : Int) (er : Err), parse_num_atoms lines = .ok natoms →
        find_atoms_block lines natoms = .error er → writtenFile lines = none)
    ∧ (∀ (natoms : Int) (s : Nat) (e : Int) (er : Err),
        parse_num_atoms lines = .ok natoms →
        find_atoms_block lines natoms = .ok (s, e) →
        infer_chain_length_and_count lines s e = .error er → writtenFile lines = none)
    ∧ (∀ (natoms : Int) (s : Nat) (e : Int) (cl nc : Int) (er : Err),
        parse_num_atoms lines = .ok natoms →
        find_atoms_block lines natoms = .ok (s, e) →
        infer_chain_length_and_count lines s e = .ok (cl, nc) →
        remap_to_acag30 lines s e cl = .error er → writtenFile lines = none)
    ∧ (∀ content, writtenFile lines = some content →
        ∃ (natoms : Int) (s : Nat) (e : Int) (cl nc : Int) (out : List TLine),
          parse_num_atoms lines = .ok natoms ∧
          find_atoms_block lines natoms = .ok (s, e) ∧
          infer_chain_length_and_count lines s e = .ok (cl, nc) ∧
          remap_to_acag30 lines s e cl = .ok out ∧ content = out.flatten) := by
  refine ⟨?_, ?_, ?_, ?_, ?_, ?_⟩
  · intro er h
    unfold writtenFile
    rw [h]
  · intro er h
    unfold writtenFile pipeline
    rw [h]
  · intro natoms er hp h
    unfold writtenFile pipeline
    rw [hp]
    dsimp only
    rw [h]
  · intro natoms s e er hp hf h
    unfold writtenFile pipeline
    rw [hp]
    dsimp only
    rw [hf]
    dsimp only
    rw [h]
  · intro natoms s e cl nc er hp hf hi h
    unfold writtenFile pipeline
    rw [hp]
    dsimp only
    rw [hf]
    dsimp only
    rw [hi]
    dsimp only
    rw [h]
  · intro content h
    unfold writtenFile at h
    split at h
    · rename_i out hout
      obtain ⟨natoms, s, e, cl, nc, hp, hf, hi, hr⟩ := pipeline_ok_inv hout
      injection h with h'
      exact ⟨natoms, s, e, cl, nc, out, hp, hf, hi, hr, h'.symm⟩
    · cases h

theorem pipeline_fail_fast_witness :
    writtenFile shortFieldsDoc = none ∧
    ∃ (natoms : Int) (s : Nat) (e : Int) (cl nc : Int) (out : List TLine),
      parse_num_atoms sampleDoc = .ok natoms ∧
      find_atoms_block sampleDoc natoms = .ok (s, e) ∧
      infer_chain_length_and_count sampleDoc s e = .ok (cl, nc) ∧
      remap_to_acag30 sampleDoc s e cl = .ok out ∧ sampleOut.flatten = out.flatten :=
  ⟨(pipeline_fail_fast shortFieldsDoc).1 .EmptyBlock (by decide),
    (pipeline_fail_fast sampleDoc).2.2.2.2.2 sampleOut.flatten (by decide)⟩

/-- C4 counterexample: a block whose single record has molecule id 0 has
a block size (1) that the maximum molecule id (0) does not divide, yet
chain inference aborts with a division-by-zero error rather than
IndivisibleChainCount. -/
theorem infer_zero_max_cex :
    collectGo zeroMaxDoc (List.range' 3 ((4 : Int) - ((3 : Nat) : Int)).toNat) = .ok [0] ∧
    ¬ ((0 : Int) ∣ ((4 : Int) - ((3 : Nat) : Int))) ∧
    infer_chain_length_and_count zeroMaxDoc 3 4 = .error .ZeroDivisionErr ∧
    infer_chain_length_and_count zeroMaxDoc 3 4 ≠ .error .IndivisibleChainCount := by
  refine ⟨by decide, ?_, by decide, by decide⟩
  intro hdvd
  have : ((4 : Int) - ((3 : Nat) : Int)) = 0 := zero_dvd_iff.mp hdvd
  norm_num at this

/-- C4 (amended): on the ids actually collected, a successful inference
returns the maximum observed molecule id as the chain count and a chain
length with n_chains * chain_len = block size; when the maximum is
nonzero the run fails with IndivisibleChainCount exactly when the
maximum does not divide the block size, and when the maximum is zero it
aborts with a division-by-zero error instead. -/
theorem infer_chain_count_amended (lines : List TLine) (s : Nat) (e : Int)
    (m : Int) (ms : List Int)
    (hcol : collectGo lines (List.range' s (e - (s : Int)).toNat) = .ok (m :: ms)) :
    (∀ cl nc : Int, infer_chain_length_and_count lines s e = .ok (cl, nc) →
        (nc ∈ m :: ms ∧ ∀ x ∈ m :: ms, x ≤ nc) ∧ nc * cl = e - (s : Int))
    ∧ (pyMax m ms ≠ 0 →
        (infer_chain_length_and_count lines s e = .error .IndivisibleChainCount ↔
          ¬ (pyMax m ms ∣ (e - (s : Int)))))
    ∧ (pyMax m ms = 0 →
        infer_chain_length_and_count lines s e = .error .ZeroDivisionErr) := by
  refine ⟨?_, fun hnz => infer_indivisible_iff hcol hnz, fun hz => infer_zero_max hcol hz⟩
  intro cl nc h
  obtain ⟨m', ms', hcol', hnc, hncne, hmod, hcl⟩ := infer_ok_inv h
  rw [hcol] at hcol'
  injection hcol' with hlist
  injection hlist with hm hms
  subst hm
  subst hms
  refine ⟨⟨?_, ?_⟩, ?_⟩
  · rcases pyMax_mem ms m with hh | hh
    · rw [hnc, hh]
      exact List.mem_cons_self m ms
    · rw [hnc]
      exact List.mem_cons_of_mem m hh
  · intro x hx
    rcases List.mem_cons.mp hx with hh | hh
    · rw [hnc, hh]
      exact le_pyMax_cur ms m
    · rw [hnc]
      exact le_pyMax_of_mem ms m x hh
  · have := Int.fmod_add_fdiv (e - (s : Int)) nc
    rw [hmod, zero_add, ← hcl] at this
    exact this

theorem infer_chain_count_amended_witness :
    ((2 : Int) ∈ [1, 1, 2, 2] ∧ ∀ x ∈ ([1, 1, 2, 2] : List Int), x ≤ 2) ∧
      (2 : Int) * 2 = 7 - ((3 : Nat) : Int) :=
  (infer_chain_count_amended sampleDoc 3 7 1 [1, 2, 2] (by decide)).1 2 2 (by decide)

/-- C5 counterexample: the only block line of this document is neither
blank nor comment-prefixed and its second field parses as the integer 7,
yet inference collects nothing and fails with EmptyBlock, because the
line has fewer than 3 fields and is skipped. -/
theorem infer_skip_short_cex :
    skipLine (shortFieldsDoc.getD 3 []) = false ∧
    (pySplit (pyStrip (shortFieldsDoc.getD 3 []))).getD 1 [] = "7".data ∧
    pyToInt ("7".data) = some 7 ∧
    collectGo shortFieldsDoc (List.range' 3 ((4 : Int) - ((3 : Nat) : Int)).toNat) = .ok [] ∧
    infer_chain_length_and_count shortFieldsDoc 3 4 = .error .EmptyBlock := by
  refine ⟨by decide, by decide, by decide, by decide, by decide⟩

/-- C5 (amended): during chain inference the block lines skipped are
exactly the blank lines, the comment-prefixed lines, and the lines with
fewer than 3 whitespace-separated fields; every other line contributes
its second field parsed as an integer (which must parse for the
collection to succeed), and EmptyBlock occurs exactly when zero ids are
collected. -/
theorem infer_collect_amended (lines : List TLine) (s : Nat) (e : Int) (ids : List Int)
    (h : collectGo lines (List.range' s (e - (s : Int)).toNat) = .ok ids) :
    (ids = (List.range' s (e - (s : Int)).toNat).filterMap (fun i =>
        if skipLine (lines.getD i []) = true ∨
            (pySplit (pyStrip (lines.getD i []))).length < 3 then none
        else pyToInt ((pySplit (pyStrip (lines.getD i []))).getD 1 [])))
    ∧ (∀ i ∈ List.range' s (e - (s : Int)).toNat,
        skipLine (lines.getD i []) = false →
        ¬ (pySplit (pyStrip (lines.getD i []))).length < 3 →
        (pyToInt ((pySplit (pyStrip (lines.getD i []))).getD 1 [])).isSome = true)
    ∧ (infer_chain_length_and_count lines s e = .error .EmptyBlock ↔ ids = []) := by
  obtain ⟨hids, hparse⟩ := collectGo_ok_inv lines _ h
  exact ⟨hids, hparse, infer_emptyblock_iff h⟩

theorem infer_collect_amended_witness :
    (([1, 1, 2, 2] : List Int) =
      (List.range' 3 ((7 : Int) - ((3 : Nat) : Int)).toNat).filterMap (fun i =>
        if skipLine (sampleDoc.getD i []) = true ∨
            (pySplit (pyStrip (sampleDoc.getD i []))).length < 3 then none
        else pyToInt ((pySplit (pyStrip (sampleDoc.getD i []))).getD 1 [])))
    ∧ (infer_chain_length_and_count sampleDoc 3 7 = .error .EmptyBlock ↔
        ([1, 1, 2, 2] : List Int) = []) :=
  ⟨(infer_collect_amended sampleDoc 3 7 [1, 1, 2, 2] (by decide)).1,
    (infer_collect_amended sampleDoc 3 7 [1, 1, 2, 2] (by decide)).2.2⟩

/-- C6 counterexample: this document's block contains a 4-field line
(index 4), yet the remapper — run with the chain length inference
produces on this document — aborts with the integer-parse error raised
on the earlier record whose atom-id field is not a number, not with
MalformedRecord. -/
theorem remap_malformed_cex :
    infer_chain_length_and_count badIdDoc 3 5 = .ok (2, 1) ∧
    skipLine (badIdDoc.getD 4 []) = false ∧
    (pySplit (badIdDoc.getD 4 [])).length < 6 ∧
    (4 : Nat) ∈ List.range' 3 ((5 : Int) - ((3 : Nat) : Int)).toNat ∧
    remap_to_acag30 badIdDoc 3 5 2 = .error .IntParseErr ∧
    remap_to_acag30 badIdDoc 3 5 2 ≠ .error .MalformedRecord ∧
    pipeline badIdDoc = .error .IntParseErr := by
  refine ⟨by decide, by decide, by decide, by decide, by decide, by decide, by decide⟩

/-- C6 (amended): provided the chain length is nonzero and every
non-blank, non-comment block line with at least 6 fields has an
integer-parsable first field, the remapper fails with MalformedRecord if
and only if some non-blank, non-comment block line splits into fewer
than 6 fields. -/
theorem remap_malformed_amended (lines : List TLine) (s : Nat) (e : Int) (cl : Int)
    (hcl : cl ≠ 0)
    (hparse : ∀ i ∈ List.range' s (e - (s : Int)).toNat,
      skipLine (lines.getD i []) = false → 6 ≤ (pySplit (lines.getD i [])).length →
      (pyToInt ((pySplit (lines.getD i [])).getD 0 [])).isSome = true) :
    remap_to_acag30 lines s e cl = .error .MalformedRecord ↔
      ∃ i ∈ List.range' s (e - (s : Int)).toNat,
        skipLine (lines.getD i []) = false ∧ (pySplit (lines.getD i [])).length < 6 := by
  constructor
  · intro h
    unfold remap_to_acag30 at h
    exact remapGo_malformed_sound _ h
  · intro hex
    unfold remap_to_acag30
    exact remapGo_malformed_complete hcl _ lines hparse hex

theorem remap_malformed_amended_witness :
    remap_to_acag30 fourFieldsDoc 3 4 1 = .error .MalformedRecord :=
  (remap_malformed_amended fourFieldsDoc 3 4 1 (by decide) (by decide)).mpr
    ⟨3, by decide, by decide, by decide⟩

/-- C7: the block locator returns the range starting two lines after the
first line whose stripped text starts with Atoms, spanning natoms lines;
it reports MissingSection exactly when no such line exists and
TruncatedDocument exactly when the computed end exceeds the number of
lines. -/
theorem find_atoms_block_spec (lines : List TLine) (natoms : Int) :
    (find_atoms_block lines natoms = .error .MissingSection ↔
      ∀ j, j < lines.length → isAtomsHeader (lines.getD j []) = false)
    ∧ (∀ i : Nat, i < lines.length → isAtomsHeader (lines.getD i []) = true →
        (∀ j, j < i → isAtomsHeader (lines.getD j []) = false) →
        ((find_atoms_block lines natoms = .error .TruncatedDocument ↔
            (i : Int) + 2 + natoms > (lines.length : Int))
          ∧ ((i : Int) + 2 + natoms ≤ (lines.length : Int) →
              find_atoms_block lines natoms = .ok (i + 2, (i : Int) + 2 + natoms)))) := by
  constructor
  · rcases hf : findAtomsHeaderIdx lines with _ | i
    · unfold find_atoms_block
      rw [hf]
      constructor
      · intro _
        exact (findAtomsHeaderIdx_none_iff lines).mp hf
      · intro _
        rfl
    · unfold find_atoms_block
      rw [hf]
      dsimp only
      constructor
      · intro h
        by_cases hgt : ((i + 2 : Nat) : Int) + natoms > (lines.length : Int)
        · rw [if_pos hgt] at h
          simp at h
        · rw [if_neg hgt] at h
          simp at h
      · intro hall
        exfalso
        have hnone : findAtomsHeaderIdx lines = none :=
          (findAtomsHeaderIdx_none_iff lines).mpr hall
        rw [hf] at hnone
        cases hnone
  · intro i hi hhd hall
    have hf : findAtomsHeaderIdx lines = some i :=
      (findAtomsHeaderIdx_some_iff lines i).mpr ⟨hi, hhd, hall⟩
    have hcast : ((i + 2 : Nat) : Int) + natoms = (i : Int) + 2 + natoms := by
      push_cast
      ring
    unfold find_atoms_block
    rw [hf]
    dsimp only
    constructor
    · by_cases hgt : ((i + 2 : Nat) : Int) + natoms > (lines.length : Int)
      · rw [if_pos hgt]
        simp only [true_iff]
        rw [← hcast]
        exact hgt
      · rw [if_neg hgt]
        rw [hcast] at hgt
        constructor
        · intro h
          simp at h
        · intro h
          exact absurd h hgt
    · intro hle
      rw [← hcast] at hle
      rw [if_neg (by omega), hcast]

theorem find_atoms_block_spec_witness :
    find_atoms_block sampleDoc 4 = .ok (3, ((1 : Nat) : Int) + 2 + 4) :=
  ((find_atoms_block_spec sampleDoc 4).2 1 (by decide) (by decide) (by decide)).2 (by decide)

/-- C8: re-running chain inference on the remapped output over the same
block range yields the same chain length and chain count as on the
input. -/
theorem infer_idempotent_on_output (lines : List TLine) (natoms : Int) (s : Nat)
    (e : Int) (cl nc : Int) (out : List TLine)
    (h1 : parse_num_atoms lines = .ok natoms)
    (h2 : find_atoms_block lines natoms = .ok (s, e))
    (h3 : infer_chain_length_and_count lines s e = .ok (cl, nc))
    (h4 : remap_to_acag30 lines s e cl = .ok out) :
    infer_chain_length_and_count out s e = .ok (cl, nc) := by
  have h4' := h4
  unfold remap_to_acag30 at h4'
  have hstep : ∀ i ∈ List.range' s (e - (s : Int)).toNat,
      collectStep (out.getD i []) = collectStep (lines.getD i []) := by
    intro i hmem
    have hiLen : i < lines.length := by
      obtain ⟨hsi, hie⟩ := mem_block_range_iff.mp hmem
      have := (find_ok_inv h2).1
      omega
    obtain ⟨nl, hnl, hout⟩ := remapGo_getD_mem _ (List.nodup_range' _ _) hmem h4'
    have houti : out.getD i [] = nl := hout hiLen
    rcases remapLine_ok_inv hnl with ⟨_, hnleq⟩ | ⟨hskipf, hlen6, _, a, _, hnleq⟩
    · rw [houti, hnleq]
    · rw [houti]
      exact out_line_collectStep hskipf hlen6 (patternType_good a cl) hnleq
  have hcong : collectGo out (List.range' s (e - (s : Int)).toNat) =
      collectGo lines (List.range' s (e - (s : Int)).toNat) :=
    collectGo_congr lines out _ hstep
  unfold infer_chain_length_and_count at h3 ⊢
  rw [hcong]
  exact h3

theorem infer_idempotent_on_output_witness :
    infer_chain_length_and_count sampleOut 3 7 = .ok (2, 2) :=
  infer_idempotent_on_output sampleDoc 4 3 7 2 2 sampleOut (by decide) (by decide)
    (by decide) (by decide)

/-- C9: a successful pipeline run produces a document with exactly as
many lines as the input. -/
theorem pipeline_preserves_line_count (lines out : List TLine)
    (h : pipeline lines = .ok out) : out.length = lines.length := by
  obtain ⟨natoms, s, e, cl, nc, _, _, _, hremap⟩ := pipeline_ok_inv h
  unfold remap_to_acag30 at hremap
  exact remapGo_length _ hremap

theorem pipeline_preserves_line_count_witness :
    sampleOut.length = sampleDoc.length :=
  pipeline_preserves_line_count sampleDoc sampleOut (by decide)

/-- C10: when chain inference succeeds and every collected molecule id
is at least 1, the returned chain length is at least 1, so the remapper
run with it can never take a modulo by zero. -/
theorem chain_len_pos (lines : List TLine) (s : Nat) (e : Int) (cl nc : Int)
    (ids : List Int)
    (h : infer_chain_length_and_count lines s e = .ok (cl, nc))
    (hcol : collectGo lines (List.range' s (e - (s : Int)).toNat) = .ok ids)
    (hpos : ∀ x ∈ ids, 1 ≤ x) :
    1 ≤ cl ∧ remap_to_acag30 lines s e cl ≠ .error .ZeroDivisionErr := by
  obtain ⟨m, ms, hcol', hnc, hncne, hmod, hcl⟩ := infer_ok_inv h
  rw [hcol] at hcol'
  injection hcol' with hids
  have hm1 : 1 ≤ m := hpos m (by rw [hids]; exact List.mem_cons_self m ms)
  have hnc1 : 1 ≤ nc := by
    rw [hnc]
    exact le_trans hm1 (le_pyMax_cur ms m)
  have hN : nc * cl = e - (s : Int) := by
    have := Int.fmod_add_fdiv (e - (s : Int)) nc
    rw [hmod, zero_add, ← hcl] at this
    exact this
  have hN1 : 1 ≤ e - (s : Int) := by
    by_contra hh
    have hzero : (e - (s : Int)).toNat = 0 := by omega
    have hnilrun : collectGo lines (List.range' s 0) = .ok [] := rfl
    rw [hzero, hnilrun] at hcol
    injection hcol with hnil
    rw [hids] at hnil
    cases hnil
  have hcl1 : 1 ≤ cl := by
    by_contra hh
    push_neg at hh
    have hcl0 : cl ≤ 0 := by omega
    have hle : nc * cl ≤ 0 := mul_nonpos_iff.mpr (Or.inl ⟨by omega, hcl0⟩)
    rw [hN] at hle
    omega
  refine ⟨hcl1, ?_⟩
  unfold remap_to_acag30
  exact remapGo_ne_zde (by omega) _ lines

theorem chain_len_pos_witness :
    (1 : Int) ≤ 2 ∧ remap_to_acag30 sampleDoc 3 7 2 ≠ .error .ZeroDivisionErr :=
  chain_len_pos sampleDoc 3 7 2 2 [1, 1, 2, 2] (by decide) (by decide) (by decide)
